import Mathlib

/-!
Verification of Hwang's generalized binary splitting implementation
(`generalized_binary_splitting.py`).

The Python source is embedded shallowly:

* `bsearchAux` / `binary_search` embed `_binary_search`: the loop state is the
  half-open window `[start, stop)` over `candidates` (Python's `start`/`end`)
  together with the accumulated `nondefective` list.  In addition to the
  source's return value the embedding returns the chronological list of
  subsets passed to the oracle, so that oracle-call counts and call arguments
  can be stated (the spec asks for call-counting to be an explicit observer).
* `gbsLoop` / `generalized_binary_splitting` embed the `while` loop of
  `generalized_binary_splitting`.  The accumulator `defects` is realised by
  prepending the defect found in a round to the result of the remaining
  rounds, which yields the same list as Python's `defects.append`.
  Besides the returned value the embedding records the oracle-call list and a
  per-iteration trace of `(len(unsure), d, len(defects))` as observed at the
  top of each loop iteration (the values the source prints when `verbose`).
  Note the source never reassigns `d`; accordingly the same `d` is passed to
  every recursive call.
* Python's bare `raise RuntimeError()` (both the fail-to-shrink check and the
  fall-through after the loop) is embedded as `Except.error ()`.
* `alpha = math.floor(math.log2(l / 2))` is embedded in exact integer
  arithmetic as `Nat.log 2 (l.toNat / 2)` (`splitAlpha`); for a natural
  number `l ≥ 2` this is exactly `⌊log₂ (l / 2)⌋`, which is proved as part of
  claim C8 below.
* `list(set(unsure) - {single_defect} - set(confirmed_okay))` is embedded as
  `gbsRemovePos`, the order-preserving enumeration of that set difference
  (CPython's set iteration order is an implementation detail; the pool is
  duplicate-free in all claims, so only the element order is at issue).
-/

namespace AdaptiveGroupTesting

/-- Oracle built from a ground-truth defectiveness predicate `D`:
`oracleOf D s` is true iff some element of `s` is defective.  This is the
claims' oracle shape `pred(S) = (S intersects D)` for a fixed defective
set `D`. -/
def oracleOf {T : Type} (D : T → Bool) : List T → Bool := fun s => s.any D

/-- Embedding of the `while` loop of `_binary_search`.  `stop` is Python's
`end`; `(candidates.drop start).take (mid - start)` is the slice
`candidates[start:mid]`.  Returns the final `start`, the `nondefective`
accumulator, and the chronological list of oracle-call arguments. -/
def bsearchAux {T : Type} (pred : List T → Bool) (candidates : List T)
    (start stop : Nat) (nondefective : List T) : Nat × List T × List (List T) :=
  if _h : start + 1 < stop then
    if pred ((candidates.drop start).take ((start + stop) / 2 - start)) then
      match bsearchAux pred candidates start ((start + stop) / 2) nondefective with
      | (st, nd, ts) => (st, nd, (candidates.drop start).take ((start + stop) / 2 - start) :: ts)
    else
      match bsearchAux pred candidates ((start + stop) / 2) stop
          (nondefective ++ (candidates.drop start).take ((start + stop) / 2 - start)) with
      | (st, nd, ts) => (st, nd, (candidates.drop start).take ((start + stop) / 2 - start) :: ts)
  else
    (start, nondefective, [])
termination_by stop - start
decreasing_by
  · omega
  · omega

/-- Embedding of `_binary_search(pred, candidates)`.  The returned defect is
`candidates[start]` for the final `start`; the source would raise
`IndexError` on an empty candidate list, which is embedded by returning
`none`.  The third component lists the oracle calls made. -/
def binary_search {T : Type} (pred : List T → Bool) (candidates : List T) :
    Option T × List T × List (List T) :=
  let r := bsearchAux pred candidates 0 candidates.length []
  (candidates.get? r.1, r.2.1, r.2.2)

/-- `alpha = math.floor(math.log2(l / 2))` with `l = n - d + 1`, in exact
integer arithmetic (see the header comment and claim C8). -/
def splitAlpha (n : Nat) (d : Int) : Nat := Nat.log 2 (((n : Int) - d + 1).toNat / 2)

/-- Embedding of `unsure = list(set(unsure) - {single_defect} - set(confirmed_okay))`:
the order-preserving enumeration of the set difference. -/
def gbsRemovePos {T : Type} [DecidableEq T] (unsure : List T) (single_defect : T)
    (confirmed_okay : List T) : List T :=
  unsure.filter fun x => decide (x ≠ single_defect ∧ x ∉ confirmed_okay)

/-- Outcome of a run of the splitting loop: the returned value (`Except.error ()`
embeds the bare `raise RuntimeError()`), the chronological list of oracle-call
arguments, and the per-iteration trace of `(len(unsure), d, len(defects))`
observed at the top of each loop iteration. -/
structure GbsOut (T : Type) where
  result : Except Unit (List T)
  tests : List (List T)
  trace : List (Nat × Int × Nat)

/-- Embedding of the `while len(unsure) > 0` loop of
`generalized_binary_splitting`.  `k` is `len(defects)`, the number of defects
confirmed so far (it only feeds the trace).  The source never reassigns `d`,
so every recursive call receives the same `d`. -/
def gbsLoop {T : Type} [DecidableEq T] (pred : List T → Bool) (unsure : List T)
    (d : Int) (k : Nat) : GbsOut T :=
  if unsure = [] then
    ⟨.error (), [], []⟩
  else
    if unsure.length = 1 ∨ (unsure.length : Int) ≤ 2 * d - 2 then
      ⟨.ok (unsure.filter fun c => pred [c]), unsure.map fun c => [c],
       [(unsure.length, d, k)]⟩
    else
      if pred (unsure.take (2 ^ splitAlpha unsure.length d)) then
        match binary_search pred (unsure.take (2 ^ splitAlpha unsure.length d)) with
        | (some single_defect, confirmed_okay, btests) =>
          if h : (gbsRemovePos unsure single_defect confirmed_okay).length = unsure.length then
            ⟨.error (), unsure.take (2 ^ splitAlpha unsure.length d) :: btests,
             [(unsure.length, d, k)]⟩
          else
            match gbsLoop pred (gbsRemovePos unsure single_defect confirmed_okay) d (k + 1) with
            | ⟨res, tests, trace⟩ =>
              ⟨res.map fun ds => single_defect :: ds,
               (unsure.take (2 ^ splitAlpha unsure.length d) :: btests) ++ tests,
               (unsure.length, d, k) :: trace⟩
        | (none, _, btests) =>
          ⟨.error (), unsure.take (2 ^ splitAlpha unsure.length d) :: btests,
           [(unsure.length, d, k)]⟩
      else
        if h : (unsure.drop (2 ^ splitAlpha unsure.length d)).length = unsure.length then
          ⟨.error (), [unsure.take (2 ^ splitAlpha unsure.length d)], [(unsure.length, d, k)]⟩
        else
          match gbsLoop pred (unsure.drop (2 ^ splitAlpha unsure.length d)) d k with
          | ⟨res, tests, trace⟩ =>
            ⟨res, unsure.take (2 ^ splitAlpha unsure.length d) :: tests,
             (unsure.length, d, k) :: trace⟩
termination_by unsure.length
decreasing_by
  · have hle : (gbsRemovePos unsure single_defect confirmed_okay).length ≤ unsure.length :=
      List.length_filter_le _ _
    omega
  · have hle : (unsure.drop (2 ^ splitAlpha unsure.length d)).length ≤ unsure.length := by
      simp [List.length_drop]
    omega

/-- Embedding of `generalized_binary_splitting(pred, items, d)` (the spec's
`solve`).  `defects = []` and `unsure = list(items)` initially. -/
def generalized_binary_splitting {T : Type} [DecidableEq T] (pred : List T → Bool)
    (items : List T) (d : Int) : GbsOut T :=
  gbsLoop pred items d 0

/-! ### Structural lemmas about `_binary_search` -/

/-- Unfolding of `bsearchAux` when the window has at most one element:
the loop body is skipped. -/
theorem bsearchAux_stop {T : Type} {pred : List T → Bool} {c : List T} {start stop : Nat}
    {nd : List T} (h : ¬ start + 1 < stop) :
    bsearchAux pred c start stop nd = (start, nd, []) := by
  rw [bsearchAux.eq_def]; simp [h]

/-- Unfolding of `bsearchAux` for a positive test of `candidates[start:mid]`. -/
theorem bsearchAux_pos {T : Type} {pred : List T → Bool} {c : List T} {start stop : Nat}
    {nd : List T} (h : start + 1 < stop)
    (hp : pred ((c.drop start).take ((start + stop) / 2 - start)) = true) :
    bsearchAux pred c start stop nd =
      ((bsearchAux pred c start ((start + stop) / 2) nd).1,
       (bsearchAux pred c start ((start + stop) / 2) nd).2.1,
       ((c.drop start).take ((start + stop) / 2 - start)) ::
         (bsearchAux pred c start ((start + stop) / 2) nd).2.2) := by
  rw [bsearchAux.eq_def]; simp [h, hp]

/-- Unfolding of `bsearchAux` for a negative test of `candidates[start:mid]`. -/
theorem bsearchAux_neg {T : Type} {pred : List T → Bool} {c : List T} {start stop : Nat}
    {nd : List T} (h : start + 1 < stop)
    (hp : pred ((c.drop start).take ((start + stop) / 2 - start)) = false) :
    bsearchAux pred c start stop nd =
      ((bsearchAux pred c ((start + stop) / 2) stop
          (nd ++ (c.drop start).take ((start + stop) / 2 - start))).1,
       (bsearchAux pred c ((start + stop) / 2) stop
          (nd ++ (c.drop start).take ((start + stop) / 2 - start))).2.1,
       ((c.drop start).take ((start + stop) / 2 - start)) ::
         (bsearchAux pred c ((start + stop) / 2) stop
            (nd ++ (c.drop start).take ((start + stop) / 2 - start))).2.2) := by
  rw [bsearchAux.eq_def]; simp [h, hp]

/-- The final window start stays inside the initial window `[start, stop)`. -/
theorem bsearchAux_bounds {T : Type} (pred : List T → Bool) (c : List T)
    (start stop : Nat) (nd : List T) (h : start < stop) :
    start ≤ (bsearchAux pred c start stop nd).1 ∧ (bsearchAux pred c start stop nd).1 < stop := by
  revert h
  induction start, stop, nd using bsearchAux.induct pred c with
  | case1 start stop nd h1 hp st' nd' ts' heq ih =>
    intro _
    rw [bsearchAux_pos h1 hp]
    have := ih (by omega)
    have h2 : (start + stop) / 2 ≤ stop := by omega
    exact ⟨this.1, by omega⟩
  | case2 start stop nd h1 hp st' nd' ts' heq ih =>
    intro _
    rw [bsearchAux_neg h1 (by simpa using hp)]
    have := ih (by omega)
    have h2 : start ≤ (start + stop) / 2 := by omega
    exact ⟨by omega, this.2⟩
  | case3 start stop nd h1 =>
    intro h
    rw [bsearchAux_stop h1]
    exact ⟨Nat.le_refl _, by omega⟩

/-- Splitting the slice `candidates[start:stop]` at `mid`. -/
theorem slice_split {T : Type} (c : List T) {start mid stop : Nat}
    (h1 : start ≤ mid) (h2 : mid ≤ stop) :
    (c.drop start).take (stop - start) =
      (c.drop start).take (mid - start) ++ (c.drop mid).take (stop - mid) := by
  have h3 : stop - start = (mid - start) + (stop - mid) := by omega
  rw [h3, List.take_add, List.drop_drop, Nat.add_sub_cancel' h1]

/-- Every element of the accumulated `nondefective` list is either from the
initial accumulator or an element of `candidates`. -/
theorem bsearchAux_nondef_sub {T : Type} (pred : List T → Bool) (c : List T)
    (start stop : Nat) (nd : List T) :
    ∀ x ∈ (bsearchAux pred c start stop nd).2.1, x ∈ nd ∨ x ∈ c := by
  induction start, stop, nd using bsearchAux.induct pred c with
  | case1 start stop nd h1 hp st' nd' ts' heq ih =>
    rw [bsearchAux_pos h1 hp]
    exact ih
  | case2 start stop nd h1 hp st' nd' ts' heq ih =>
    rw [bsearchAux_neg h1 (by simpa using hp)]
    intro x hx
    rcases ih x hx with h | h
    · rcases List.mem_append.1 h with h | h
      · exact Or.inl h
      · exact Or.inr (List.drop_subset _ _ (List.take_subset _ _ h))
    · exact Or.inr h
  | case3 start stop nd h1 =>
    rw [bsearchAux_stop h1]
    intro x hx
    exact Or.inl hx

/-- The number of oracle calls of the bisection loop is at most
`⌈log₂ (stop - start)⌉`. -/
theorem bsearchAux_calls_le {T : Type} (pred : List T → Bool) (c : List T)
    (start stop : Nat) (nd : List T) :
    (bsearchAux pred c start stop nd).2.2.length ≤ Nat.clog 2 (stop - start) := by
  induction start, stop, nd using bsearchAux.induct pred c with
  | case1 start stop nd h1 hp st' nd' ts' heq ih =>
    rw [bsearchAux_pos h1 hp]
    have hmid : (start + stop) / 2 - start = (stop - start) / 2 := by omega
    have hclog : Nat.clog 2 (stop - start) =
        Nat.clog 2 ((stop - start + 1) / 2) + 1 := by
      rw [Nat.clog_of_two_le (by norm_num) (by omega),
        show stop - start + 2 - 1 = stop - start + 1 by omega]
    have hmono : Nat.clog 2 ((stop - start) / 2) ≤ Nat.clog 2 ((stop - start + 1) / 2) :=
      Nat.clog_mono_right 2 (by omega)
    simp only [List.length_cons]
    rw [hclog]
    have := ih
    rw [hmid] at this
    omega
  | case2 start stop nd h1 hp st' nd' ts' heq ih =>
    rw [bsearchAux_neg h1 (by simpa using hp)]
    have hmid : stop - (start + stop) / 2 = (stop - start + 1) / 2 := by omega
    have hclog : Nat.clog 2 (stop - start) =
        Nat.clog 2 ((stop - start + 1) / 2) + 1 := by
      rw [Nat.clog_of_two_le (by norm_num) (by omega),
        show stop - start + 2 - 1 = stop - start + 1 by omega]
    simp only [List.length_cons]
    rw [hclog]
    have := ih
    rw [hmid] at this
    omega
  | case3 start stop nd h1 =>
    rw [bsearchAux_stop h1]
    simp

/-- Every subset the bisection loop passes to the oracle is non-empty. -/
theorem bsearchAux_tests_nonempty {T : Type} (pred : List T → Bool) (c : List T)
    (start stop : Nat) (nd : List T) (hstop : stop ≤ c.length) :
    ∀ t ∈ (bsearchAux pred c start stop nd).2.2, t ≠ [] := by
  revert hstop
  induction start, stop, nd using bsearchAux.induct pred c with
  | case1 start stop nd h1 hp st' nd' ts' heq ih =>
    intro hstop
    rw [bsearchAux_pos h1 hp]
    intro t ht
    rcases List.mem_cons.1 ht with rfl | ht
    · have hlen : ((c.drop start).take ((start + stop) / 2 - start)).length =
          min ((start + stop) / 2 - start) (c.length - start) := by
        simp [List.length_take, List.length_drop]
      intro hnil
      rw [hnil] at hlen
      simp at hlen
      omega
    · exact ih (by omega) t ht
  | case2 start stop nd h1 hp st' nd' ts' heq ih =>
    intro hstop
    rw [bsearchAux_neg h1 (by simpa using hp)]
    intro t ht
    rcases List.mem_cons.1 ht with rfl | ht
    · have hlen : ((c.drop start).take ((start + stop) / 2 - start)).length =
          min ((start + stop) / 2 - start) (c.length - start) := by
        simp [List.length_take, List.length_drop]
      intro hnil
      rw [hnil] at hlen
      simp at hlen
      omega
    · exact ih hstop t ht
  | case3 start stop nd h1 =>
    intro hstop
    rw [bsearchAux_stop h1]
    simp

/-- Soundness of the bisection loop for a ground-truth oracle `oracleOf D`:
if the current window `candidates[start:stop]` contains a defective item, the
returned index points at a defective item, and everything newly added to
`nondefective` is a non-defective element of `candidates`. -/
theorem bsearchAux_sound {T : Type} (D : T → Bool) (c : List T)
    (start stop : Nat) (nd : List T) (hlt : start < stop) (hstop : stop ≤ c.length)
    (hany : ((c.drop start).take (stop - start)).any D = true) :
    (∃ y, c.get? (bsearchAux (oracleOf D) c start stop nd).1 = some y ∧ D y = true) ∧
      (∀ x ∈ (bsearchAux (oracleOf D) c start stop nd).2.1,
        x ∈ nd ∨ D x = false) := by
  revert hlt hstop hany
  induction start, stop, nd using bsearchAux.induct (oracleOf D) c with
  | case1 start stop nd h1 hp st' nd' ts' heq ih =>
    intro hlt hstop hany
    rw [bsearchAux_pos h1 hp]
    exact ih (by omega) (by omega) hp
  | case2 start stop nd h1 hp st' nd' ts' heq ih =>
    intro hlt hstop hany
    have hp' : oracleOf D ((c.drop start).take ((start + stop) / 2 - start)) = false := by
      simpa using hp
    rw [bsearchAux_neg h1 hp']
    have hsplit := slice_split c (show start ≤ (start + stop) / 2 by omega)
      (show (start + stop) / 2 ≤ stop by omega)
    rw [hsplit, List.any_append] at hany
    rw [show oracleOf D ((c.drop start).take ((start + stop) / 2 - start)) =
        ((c.drop start).take ((start + stop) / 2 - start)).any D from rfl] at hp'
    rw [hp', Bool.false_or] at hany
    have := ih (by omega) hstop hany
    refine ⟨this.1, ?_⟩
    intro x hx
    rcases this.2 x hx with h | h
    · rcases List.mem_append.1 h with h | h
      · exact Or.inl h
      · refine Or.inr ?_
        have := List.any_eq_false.1 hp' x h
        simpa using this
    · exact Or.inr h
  | case3 start stop nd h1 =>
    intro hlt hstop hany
    rw [bsearchAux_stop h1]
    have hstop1 : stop = start + 1 := by omega
    subst hstop1
    have hlen : start < c.length := by omega
    rw [show start + 1 - start = 1 by omega,
      List.take_one_drop_eq_of_lt_length hlen] at hany
    simp only [List.any_cons, List.any_nil, Bool.or_false] at hany
    refine ⟨⟨c.get ⟨start, hlen⟩, List.get?_eq_get hlen, hany⟩, ?_⟩
    intro x hx
    exact Or.inl hx


/-- `_binary_search` on a non-empty candidate list returns `candidates[start]`
for a final `start` inside the list. -/
theorem binary_search_some {T : Type} (pred : List T → Bool) (c : List T) (hne : c ≠ []) :
    ∃ defect, (binary_search pred c).1 = some defect ∧ defect ∈ c := by
  have hlen : 0 < c.length := List.length_pos.2 hne
  have hb := bsearchAux_bounds pred c 0 c.length [] hlen
  exact ⟨_, List.get?_eq_get hb.2, List.get_mem c _ hb.2⟩

/-- Everything `_binary_search` accumulates as `nondefective` comes from the
candidate list. -/
theorem binary_search_nondef_sub {T : Type} (pred : List T → Bool) (c : List T) :
    ∀ x ∈ (binary_search pred c).2.1, x ∈ c := by
  intro x hx
  rcases bsearchAux_nondef_sub pred c 0 c.length [] x hx with h | h
  · simp at h
  · exact h

/-- `_binary_search` makes at most `⌈log₂ (len candidates)⌉` oracle calls. -/
theorem binary_search_calls_le {T : Type} (pred : List T → Bool) (c : List T) :
    (binary_search pred c).2.2.length ≤ Nat.clog 2 c.length := by
  have := bsearchAux_calls_le pred c 0 c.length []
  simpa using this

/-- Every subset `_binary_search` passes to the oracle is non-empty. -/
theorem binary_search_tests_nonempty {T : Type} (pred : List T → Bool) (c : List T) :
    ∀ t ∈ (binary_search pred c).2.2, t ≠ [] :=
  bsearchAux_tests_nonempty pred c 0 c.length [] (Nat.le_refl _)

/-- Soundness of `_binary_search` for the ground-truth oracle `oracleOf D` (the
content of claim C2): if the whole candidate list tests positive, the returned
item is defective and every `nondefective` item is a non-defective member of
the candidates. -/
theorem binary_search_sound {T : Type} (D : T → Bool) (c : List T) (hne : c ≠ [])
    (hany : c.any D = true) :
    (∃ defect, (binary_search (oracleOf D) c).1 = some defect ∧ defect ∈ c ∧
      D defect = true) ∧
      (∀ x ∈ (binary_search (oracleOf D) c).2.1, x ∈ c ∧ D x = false) := by
  have hlen : 0 < c.length := List.length_pos.2 hne
  have hwin : ((c.drop 0).take (c.length - 0)).any D = true := by
    simpa using hany
  have hs := bsearchAux_sound D c 0 c.length [] hlen (Nat.le_refl _) hwin
  constructor
  · rcases hs.1 with ⟨y, hy, hDy⟩
    exact ⟨y, hy, List.get?_mem hy, hDy⟩
  · intro x hx
    refine ⟨binary_search_nondef_sub _ c x hx, ?_⟩
    rcases hs.2 x hx with h | h
    · simp at h
    · exact h

/-! ### Arithmetic of the adaptive split -/

/-- In the adaptive case (`n ≥ 2` and `n > 2d - 2`) the quantity
`l = n - d + 1` is at least `2`, provided `d ≥ 1`. -/
theorem adaptive_l_ge_two {n : Nat} {d : Int} (hd : 1 ≤ d)
    (hn : ¬(n = 1 ∨ (n : Int) ≤ 2 * d - 2)) :
    2 ≤ ((n : Int) - d + 1).toNat ∧ ((n : Int) - d + 1).toNat ≤ n := by
  push_neg at hn
  omega

/-- In the adaptive case with `d ≥ 1` the tested block size `2 ^ alpha` is
strictly smaller than the pool size `n`. -/
theorem adaptive_pow_lt {n : Nat} {d : Int} (hd : 1 ≤ d)
    (hn : ¬(n = 1 ∨ (n : Int) ≤ 2 * d - 2)) :
    2 ^ splitAlpha n d < n := by
  rcases adaptive_l_ge_two hd hn with ⟨hl2, hln⟩
  have hm : 1 ≤ ((n : Int) - d + 1).toNat / 2 := by omega
  have hpow : 2 ^ splitAlpha n d ≤ ((n : Int) - d + 1).toNat / 2 :=
    Nat.pow_log_le_self 2 (by omega)
  omega

/-! ### Step lemmas for the splitting loop -/

/-- Unfolding `gbsLoop` on the empty pool: the loop is skipped and the source
falls through to the final `raise RuntimeError()`. -/
theorem gbsLoop_nil {T : Type} [DecidableEq T] (pred : List T → Bool) (d : Int) (k : Nat) :
    gbsLoop pred ([] : List T) d k = ⟨.error (), [], []⟩ := by
  rw [gbsLoop.eq_def]
  simp

/-- Unfolding `gbsLoop` in the individual-testing base case. -/
theorem gbsLoop_base {T : Type} [DecidableEq T] {pred : List T → Bool} {unsure : List T}
    {d : Int} {k : Nat} (hne : unsure ≠ [])
    (hbase : unsure.length = 1 ∨ (unsure.length : Int) ≤ 2 * d - 2) :
    gbsLoop pred unsure d k =
      ⟨.ok (unsure.filter fun c => pred [c]), unsure.map fun c => [c],
       [(unsure.length, d, k)]⟩ := by
  rw [gbsLoop.eq_def]
  simp [hne, hbase]

/-- Unfolding `gbsLoop` in the adaptive case with a positive block test. -/
theorem gbsLoop_pos {T : Type} [DecidableEq T] {pred : List T → Bool} {unsure : List T}
    {d : Int} {k : Nat} {single_defect : T} {confirmed_okay : List T}
    {btests : List (List T)} {res : Except Unit (List T)} {tests : List (List T)}
    {trace : List (Nat × Int × Nat)} (hne : unsure ≠ [])
    (hbase : ¬(unsure.length = 1 ∨ (unsure.length : Int) ≤ 2 * d - 2))
    (hpred : pred (unsure.take (2 ^ splitAlpha unsure.length d)) = true)
    (hbs : binary_search pred (unsure.take (2 ^ splitAlpha unsure.length d)) =
      (some single_defect, confirmed_okay, btests))
    (hstuck : ¬(gbsRemovePos unsure single_defect confirmed_okay).length = unsure.length)
    (hrest : gbsLoop pred (gbsRemovePos unsure single_defect confirmed_okay) d (k + 1) =
      ⟨res, tests, trace⟩) :
    gbsLoop pred unsure d k =
      ⟨res.map fun ds => single_defect :: ds,
       (unsure.take (2 ^ splitAlpha unsure.length d) :: btests) ++ tests,
       (unsure.length, d, k) :: trace⟩ := by
  rw [gbsLoop.eq_def]
  simp [hne, hbase, hpred, hbs, hstuck, hrest]

/-- Unfolding `gbsLoop` in the adaptive case with a negative block test. -/
theorem gbsLoop_neg {T : Type} [DecidableEq T] {pred : List T → Bool} {unsure : List T}
    {d : Int} {k : Nat} {res : Except Unit (List T)} {tests : List (List T)}
    {trace : List (Nat × Int × Nat)} (hne : unsure ≠ [])
    (hbase : ¬(unsure.length = 1 ∨ (unsure.length : Int) ≤ 2 * d - 2))
    (hpred : pred (unsure.take (2 ^ splitAlpha unsure.length d)) = false)
    (hstuck : ¬(unsure.drop (2 ^ splitAlpha unsure.length d)).length = unsure.length)
    (hrest : gbsLoop pred (unsure.drop (2 ^ splitAlpha unsure.length d)) d k =
      ⟨res, tests, trace⟩) :
    gbsLoop pred unsure d k =
      ⟨res, unsure.take (2 ^ splitAlpha unsure.length d) :: tests,
       (unsure.length, d, k) :: trace⟩ := by
  have hstuck2 : ¬(unsure.length - 2 ^ splitAlpha unsure.length d = unsure.length) := by
    rw [← List.length_drop]
    exact hstuck
  rw [gbsLoop.eq_def]
  simp [hne, hbase, hpred, hstuck2, hrest]

/-! ### Bookkeeping of the pool update -/

/-- Removing a defect that is actually in the pool strictly shrinks the pool:
the fail-to-shrink `RuntimeError` check never fires in the positive branch. -/
theorem removePos_length_lt {T : Type} [DecidableEq T] {unsure : List T} {single_defect : T}
    (confirmed_okay : List T) (hdef : single_defect ∈ unsure) :
    (gbsRemovePos unsure single_defect confirmed_okay).length < unsure.length := by
  apply List.length_filter_lt_length_iff_exists.2
  exact ⟨single_defect, hdef, by simp⟩

/-- The removed items all come from the tested block, so in a duplicate-free
pool every element of `unsure[2^alpha:]` survives the positive-branch update. -/
theorem mem_removePos_of_mem_drop {T : Type} [DecidableEq T] {unsure : List T}
    {single_defect : T} {confirmed_okay : List T} {a : Nat} (hnodup : unsure.Nodup)
    (hdef : single_defect ∈ unsure.take a)
    (hclean : ∀ x ∈ confirmed_okay, x ∈ unsure.take a) :
    ∀ x ∈ unsure.drop a, x ∈ gbsRemovePos unsure single_defect confirmed_okay := by
  intro x hx
  have hxin : x ∈ unsure := List.drop_subset _ _ hx
  have hdisj := List.disjoint_take_drop (m := a) (n := a) hnodup (Nat.le_refl a)
  have hxnt : x ∉ unsure.take a := fun h => hdisj h hx
  refine List.mem_filter.2 ⟨hxin, ?_⟩
  rw [decide_eq_true_iff]
  exact ⟨fun h => hxnt (h ▸ hdef), fun h => hxnt (hclean x h)⟩

/-- `unsure[:2^alpha]` is non-empty whenever the pool is. -/
theorem take_pow_ne_nil {T : Type} {unsure : List T} (hne : unsure ≠ []) (a : Nat) :
    unsure.take (2 ^ a) ≠ [] := by
  intro h
  rcases List.take_eq_nil_iff.1 h with h1 | h1
  · exact absurd h1 (Nat.pos_iff_ne_zero.1 (Nat.two_pow_pos a))
  · exact hne h1

/-- The positive-branch update never leaves an empty pool when `d ≥ 1` and the
pool is duplicate-free (at least the elements of `unsure[2^alpha:]` remain). -/
theorem removePos_ne_nil {T : Type} [DecidableEq T] {unsure : List T} {d : Int}
    {single_defect : T} {confirmed_okay : List T} (hd : 1 ≤ d)
    (hnodup : unsure.Nodup)
    (hbase : ¬(unsure.length = 1 ∨ (unsure.length : Int) ≤ 2 * d - 2))
    (hdef : single_defect ∈ unsure.take (2 ^ splitAlpha unsure.length d))
    (hclean : ∀ x ∈ confirmed_okay, x ∈ unsure.take (2 ^ splitAlpha unsure.length d)) :
    gbsRemovePos unsure single_defect confirmed_okay ≠ [] := by
  have hlt := adaptive_pow_lt hd hbase
  have hdrop : unsure.drop (2 ^ splitAlpha unsure.length d) ≠ [] := by
    intro h
    have := congrArg List.length h
    simp [List.length_drop] at this
    omega
  rcases List.exists_mem_of_ne_nil _ hdrop with ⟨x, hx⟩
  exact List.ne_nil_of_mem (mem_removePos_of_mem_drop hnodup hdef hclean x hx)

/-! ### The loop succeeds and strictly shrinks the pool (`d ≥ 1`) -/

/-- Master structural lemma: for any oracle, any `d ≥ 1` and a non-empty,
duplicate-free pool, the loop returns normally (neither `RuntimeError` site is
reached), the pool size recorded at consecutive iterations strictly
decreases, and every recorded pool size is bounded by the initial one. -/
theorem gbsLoop_ok {T : Type} [DecidableEq T] (pred : List T → Bool) (unsure : List T)
    (d : Int) (k : Nat) (hd : 1 ≤ d) (hne : unsure ≠ []) (hnodup : unsure.Nodup) :
    (∃ ds, (gbsLoop pred unsure d k).result = .ok ds) ∧
      List.Chain' (fun a b => b.1 < a.1) (gbsLoop pred unsure d k).trace ∧
      ∀ e ∈ (gbsLoop pred unsure d k).trace, e.1 ≤ unsure.length := by
  revert hd hne hnodup
  induction unsure, d, k using gbsLoop.induct pred with
  | case1 d k =>
    intro _ hne _
    exact absurd rfl hne
  | case2 unsure d k hne' hbase =>
    intro hd hne hnodup
    rw [gbsLoop_base hne' hbase]
    refine ⟨⟨_, rfl⟩, ?_, ?_⟩
    · simp
    · intro e he
      simp at he
      simp [he]
  | case3 unsure d k hne' hbase hpred single_defect confirmed_okay btests heq hstuck =>
    intro hd hne hnodup
    exfalso
    rcases binary_search_some pred _ (take_pow_ne_nil hne' (splitAlpha unsure.length d)) with
      ⟨defect', h1, h2⟩
    rw [heq] at h1
    have hsd : single_defect = defect' := Option.some.inj h1
    rw [← hsd] at h2
    have hmem : single_defect ∈ unsure := List.take_subset _ _ h2
    exact absurd hstuck (Nat.ne_of_lt (removePos_length_lt confirmed_okay hmem))
  | case4 unsure d k hne' hbase hpred single_defect confirmed_okay btests heq hstuck
      res tests trace heq' ih =>
    intro hd hne hnodup
    rcases binary_search_some pred _ (take_pow_ne_nil hne' (splitAlpha unsure.length d)) with
      ⟨defect', h1, h2⟩
    rw [heq] at h1
    have hsd : single_defect = defect' := Option.some.inj h1
    rw [← hsd] at h2
    have hdmem : single_defect ∈ unsure := List.take_subset _ _ h2
    have hclean : ∀ x ∈ confirmed_okay, x ∈ unsure.take (2 ^ splitAlpha unsure.length d) := by
      have h := binary_search_nondef_sub pred (unsure.take (2 ^ splitAlpha unsure.length d))
      rw [heq] at h
      exact h
    have hlt : (gbsRemovePos unsure single_defect confirmed_okay).length < unsure.length :=
      removePos_length_lt confirmed_okay hdmem
    have hu'ne : gbsRemovePos unsure single_defect confirmed_okay ≠ [] :=
      removePos_ne_nil hd hnodup hbase h2 hclean
    have hu'nodup : (gbsRemovePos unsure single_defect confirmed_okay).Nodup :=
      hnodup.filter _
    have IH := ih hd hu'ne hu'nodup
    rw [heq'] at IH
    have IH1 : ∃ ds, res = Except.ok ds := IH.1
    have IH2 : List.Chain' (fun a b => b.1 < a.1) trace := IH.2.1
    have IH3 : ∀ e ∈ trace, e.1 ≤ (gbsRemovePos unsure single_defect confirmed_okay).length :=
      IH.2.2
    rw [gbsLoop_pos hne' hbase hpred heq hstuck heq']
    refine ⟨?_, ?_, ?_⟩
    · show ∃ ds, res.map (fun ds => single_defect :: ds) = Except.ok ds
      rcases IH1 with ⟨ds, hds⟩
      exact ⟨single_defect :: ds, by rw [hds]; rfl⟩
    · show List.Chain' (fun a b => b.1 < a.1) ((unsure.length, d, k) :: trace)
      refine List.chain'_cons'.2 ⟨?_, IH2⟩
      intro y hy
      have hyt : y ∈ trace := List.mem_of_mem_head? hy
      have := IH3 y hyt
      omega
    · show ∀ e ∈ (unsure.length, d, k) :: trace, e.1 ≤ unsure.length
      intro e he
      rcases List.mem_cons.1 he with rfl | he
      · simp
      · have := IH3 e he
        omega
  | case5 unsure d k hne' hbase hpred fst btests heq =>
    intro hd hne hnodup
    exfalso
    rcases binary_search_some pred _ (take_pow_ne_nil hne' (splitAlpha unsure.length d)) with
      ⟨defect', h1, h2⟩
    rw [heq] at h1
    exact Option.noConfusion h1
  | case6 unsure d k hne' hbase hpred hstuck =>
    intro hd hne hnodup
    exfalso
    have hlen : 0 < unsure.length := List.length_pos.2 hne'
    have hpow : 0 < 2 ^ splitAlpha unsure.length d := Nat.two_pow_pos _
    rw [List.length_drop] at hstuck
    omega
  | case7 unsure d k hne' hbase hpred hstuck res tests trace heq' ih =>
    intro hd hne hnodup
    have hlt := adaptive_pow_lt hd hbase
    have hdne : unsure.drop (2 ^ splitAlpha unsure.length d) ≠ [] := by
      intro h
      have := congrArg List.length h
      rw [List.length_drop] at this
      simp at this
      omega
    have hdnodup : (unsure.drop (2 ^ splitAlpha unsure.length d)).Nodup :=
      hnodup.sublist (List.drop_sublist _ _)
    have IH := ih hd hdne hdnodup
    rw [heq'] at IH
    have IH1 : ∃ ds, res = Except.ok ds := IH.1
    have IH2 : List.Chain' (fun a b => b.1 < a.1) trace := IH.2.1
    have IH3 : ∀ e ∈ trace, e.1 ≤ (unsure.drop (2 ^ splitAlpha unsure.length d)).length :=
      IH.2.2
    rw [gbsLoop_neg hne' hbase (by simpa using hpred) hstuck heq']
    have hdlen : (unsure.drop (2 ^ splitAlpha unsure.length d)).length < unsure.length := by
      rw [List.length_drop]
      have hlen : 0 < unsure.length := List.length_pos.2 hne'
      have hpow : 0 < 2 ^ splitAlpha unsure.length d := Nat.two_pow_pos _
      omega
    refine ⟨IH1, ?_, ?_⟩
    · show List.Chain' (fun a b => b.1 < a.1) ((unsure.length, d, k) :: trace)
      refine List.chain'_cons'.2 ⟨?_, IH2⟩
      intro y hy
      have hyt : y ∈ trace := List.mem_of_mem_head? hy
      have := IH3 y hyt
      omega
    · show ∀ e ∈ (unsure.length, d, k) :: trace, e.1 ≤ unsure.length
      intro e he
      rcases List.mem_cons.1 he with rfl | he
      · simp
      · have := IH3 e he
        omega

/-- The defect returned by a positive round is a member of the tested block. -/
theorem pos_defect_mem {T : Type} {pred : List T → Bool} {unsure : List T} {d : Int}
    {single_defect : T} {confirmed_okay : List T} {btests : List (List T)}
    (hne : unsure ≠ [])
    (heq : binary_search pred (unsure.take (2 ^ splitAlpha unsure.length d)) =
      (some single_defect, confirmed_okay, btests)) :
    single_defect ∈ unsure.take (2 ^ splitAlpha unsure.length d) := by
  rcases binary_search_some pred _ (take_pow_ne_nil hne (splitAlpha unsure.length d)) with
    ⟨defect', h1, h2⟩
  rw [heq] at h1
  have hsd : single_defect = defect' := Option.some.inj h1
  rw [← hsd] at h2
  exact h2

/-! ### Full functional correctness for ground-truth oracles -/

/-- Master correctness lemma: for the oracle `oracleOf D`, any `d ≥ 1` and any
non-empty duplicate-free pool, the loop returns (no `RuntimeError`) and the
returned list contains exactly the defective members of the pool — with no
assumption on how many defectives the pool contains. -/
theorem gbsLoop_correct {T : Type} [DecidableEq T] (D : T → Bool) (unsure : List T)
    (d : Int) (k : Nat) (hd : 1 ≤ d) (hne : unsure ≠ []) (hnodup : unsure.Nodup) :
    ∃ ds, (gbsLoop (oracleOf D) unsure d k).result = .ok ds ∧
      ∀ x, x ∈ ds ↔ x ∈ unsure ∧ D x = true := by
  revert hd hne hnodup
  induction unsure, d, k using gbsLoop.induct (oracleOf D) with
  | case1 d k =>
    intro _ hne _
    exact absurd rfl hne
  | case2 unsure d k hne' hbase =>
    intro hd hne hnodup
    rw [gbsLoop_base hne' hbase]
    refine ⟨_, rfl, ?_⟩
    intro x
    rw [List.mem_filter]
    simp [oracleOf]
  | case3 unsure d k hne' hbase hpred single_defect confirmed_okay btests heq hstuck =>
    intro hd hne hnodup
    exfalso
    have hmem : single_defect ∈ unsure := List.take_subset _ _ (pos_defect_mem hne' heq)
    exact absurd hstuck (Nat.ne_of_lt (removePos_length_lt confirmed_okay hmem))
  | case4 unsure d k hne' hbase hpred single_defect confirmed_okay btests heq hstuck
      res tests trace heq' ih =>
    intro hd hne hnodup
    have htne := take_pow_ne_nil hne' (splitAlpha unsure.length d)
    have hdef := pos_defect_mem hne' heq
    have hsound := binary_search_sound D (unsure.take (2 ^ splitAlpha unsure.length d)) htne hpred
    have hDdef : D single_defect = true := by
      rcases hsound.1 with ⟨defect', h1, _, hD⟩
      rw [heq] at h1
      have hsd : single_defect = defect' := Option.some.inj h1
      rw [← hsd] at hD
      exact hD
    have hcleanfact : ∀ x ∈ confirmed_okay,
        x ∈ unsure.take (2 ^ splitAlpha unsure.length d) ∧ D x = false := by
      have h := hsound.2
      rw [heq] at h
      exact h
    have hclean : ∀ x ∈ confirmed_okay, x ∈ unsure.take (2 ^ splitAlpha unsure.length d) :=
      fun x hx => (hcleanfact x hx).1
    have hu'ne : gbsRemovePos unsure single_defect confirmed_okay ≠ [] :=
      removePos_ne_nil hd hnodup hbase hdef hclean
    have hu'nodup : (gbsRemovePos unsure single_defect confirmed_okay).Nodup :=
      hnodup.filter _
    have IH := ih hd hu'ne hu'nodup
    rw [heq'] at IH
    rcases IH with ⟨ds, hds, hmem⟩
    have hres : res = Except.ok ds := hds
    rw [gbsLoop_pos hne' hbase hpred heq hstuck heq']
    refine ⟨single_defect :: ds, ?_, ?_⟩
    · show res.map (fun l => single_defect :: l) = Except.ok (single_defect :: ds)
      rw [hres]
      rfl
    · intro x
      constructor
      · intro hx
        rcases List.mem_cons.1 hx with rfl | hx
        · exact ⟨List.take_subset _ _ hdef, hDdef⟩
        · rcases (hmem x).1 hx with ⟨hxu, hDx⟩
          exact ⟨List.mem_of_mem_filter hxu, hDx⟩
      · rintro ⟨hxu, hDx⟩
        by_cases hxd : x = single_defect
        · exact hxd ▸ List.mem_cons_self _ _
        · by_cases hxc : x ∈ confirmed_okay
          · exact absurd hDx (by simp [(hcleanfact x hxc).2])
          · refine List.mem_cons_of_mem _ ((hmem x).2 ⟨?_, hDx⟩)
            refine List.mem_filter.2 ⟨hxu, ?_⟩
            rw [decide_eq_true_iff]
            exact ⟨hxd, hxc⟩
  | case5 unsure d k hne' hbase hpred fst btests heq =>
    intro hd hne hnodup
    exfalso
    rcases binary_search_some (oracleOf D) _
      (take_pow_ne_nil hne' (splitAlpha unsure.length d)) with ⟨defect', h1, _⟩
    rw [heq] at h1
    exact Option.noConfusion h1
  | case6 unsure d k hne' hbase hpred hstuck =>
    intro hd hne hnodup
    exfalso
    have hlen : 0 < unsure.length := List.length_pos.2 hne'
    have hpow : 0 < 2 ^ splitAlpha unsure.length d := Nat.two_pow_pos _
    rw [List.length_drop] at hstuck
    omega
  | case7 unsure d k hne' hbase hpred hstuck res tests trace heq' ih =>
    intro hd hne hnodup
    have hlt := adaptive_pow_lt hd hbase
    have hdne : unsure.drop (2 ^ splitAlpha unsure.length d) ≠ [] := by
      intro h
      have := congrArg List.length h
      rw [List.length_drop] at this
      simp at this
      omega
    have hdnodup : (unsure.drop (2 ^ splitAlpha unsure.length d)).Nodup :=
      hnodup.sublist (List.drop_sublist _ _)
    have htclean : ∀ x ∈ unsure.take (2 ^ splitAlpha unsure.length d), D x = false := by
      have h : (unsure.take (2 ^ splitAlpha unsure.length d)).any D = false := by
        simpa [oracleOf] using hpred
      intro x hx
      have := List.any_eq_false.1 h x hx
      simpa using this
    have IH := ih hd hdne hdnodup
    rw [heq'] at IH
    rcases IH with ⟨ds, hds, hmem⟩
    have hres : res = Except.ok ds := hds
    rw [gbsLoop_neg hne' hbase (by simpa using hpred) hstuck heq']
    refine ⟨ds, hres, ?_⟩
    intro x
    rw [hmem x]
    constructor
    · rintro ⟨hxu, hDx⟩
      exact ⟨List.drop_subset _ _ hxu, hDx⟩
    · rintro ⟨hxu, hDx⟩
      refine ⟨?_, hDx⟩
      rcases List.mem_append.1 ((List.take_append_drop (2 ^ splitAlpha unsure.length d) unsure) ▸ hxu) with h | h
      · exact absurd hDx (by simp [htclean x h])
      · exact h

/-! ### Every oracle call receives a non-empty subset -/

/-- Every subset the splitting loop (including its bisection subcalls) passes
to the oracle is non-empty, for every oracle and every `d`. -/
theorem gbsLoop_tests_nonempty {T : Type} [DecidableEq T] (pred : List T → Bool)
    (unsure : List T) (d : Int) (k : Nat) :
    ∀ t ∈ (gbsLoop pred unsure d k).tests, t ≠ [] := by
  induction unsure, d, k using gbsLoop.induct pred with
  | case1 d k =>
    rw [gbsLoop_nil]
    intro t ht
    simp at ht
  | case2 unsure d k hne' hbase =>
    rw [gbsLoop_base hne' hbase]
    intro t ht
    simp only [List.mem_map] at ht
    rcases ht with ⟨c, _, rfl⟩
    simp
  | case3 unsure d k hne' hbase hpred single_defect confirmed_okay btests heq hstuck =>
    rw [gbsLoop.eq_def]
    simp only [if_neg hne', if_neg hbase, if_pos hpred, heq, dif_pos hstuck]
    intro t ht
    rcases List.mem_cons.1 ht with rfl | ht
    · exact take_pow_ne_nil hne' _
    · have h := binary_search_tests_nonempty pred (unsure.take (2 ^ splitAlpha unsure.length d))
      rw [heq] at h
      exact h t ht
  | case4 unsure d k hne' hbase hpred single_defect confirmed_okay btests heq hstuck
      res tests trace heq' ih =>
    rw [gbsLoop_pos hne' hbase hpred heq hstuck heq']
    intro t ht
    rcases List.mem_append.1 ht with ht | ht
    · rcases List.mem_cons.1 ht with rfl | ht
      · exact take_pow_ne_nil hne' _
      · have h := binary_search_tests_nonempty pred (unsure.take (2 ^ splitAlpha unsure.length d))
        rw [heq] at h
        exact h t ht
    · have h := ih t
      rw [heq'] at h
      exact h ht
  | case5 unsure d k hne' hbase hpred fst btests heq =>
    rw [gbsLoop.eq_def]
    simp only [if_neg hne', if_neg hbase, if_pos hpred, heq]
    intro t ht
    rcases List.mem_cons.1 ht with rfl | ht
    · exact take_pow_ne_nil hne' _
    · have h := binary_search_tests_nonempty pred (unsure.take (2 ^ splitAlpha unsure.length d))
      rw [heq] at h
      exact h t ht
  | case6 unsure d k hne' hbase hpred hstuck =>
    rw [gbsLoop.eq_def]
    simp only [if_neg hne', if_neg hbase, if_neg hpred, dif_pos hstuck]
    intro t ht
    rcases List.mem_cons.1 ht with rfl | ht
    · exact take_pow_ne_nil hne' _
    · simp at ht
  | case7 unsure d k hne' hbase hpred hstuck res tests trace heq' ih =>
    rw [gbsLoop_neg hne' hbase (by simpa using hpred) hstuck heq']
    intro t ht
    rcases List.mem_cons.1 ht with rfl | ht
    · exact take_pow_ne_nil hne' _
    · have h := ih t
      rw [heq'] at h
      exact h ht

/-- In the adaptive case (any oracle, any `d`), the first oracle call of the
iteration is exactly the block `unsure[:2^alpha]`. -/
theorem gbsLoop_tests_head {T : Type} [DecidableEq T] (pred : List T → Bool)
    (unsure : List T) (d : Int) (k : Nat) (hne : unsure ≠ [])
    (hbase : ¬(unsure.length = 1 ∨ (unsure.length : Int) ≤ 2 * d - 2)) :
    (gbsLoop pred unsure d k).tests.head? =
      some (unsure.take (2 ^ splitAlpha unsure.length d)) := by
  rw [gbsLoop.eq_def]
  simp only [if_neg hne, if_neg hbase]
  by_cases hpred : pred (unsure.take (2 ^ splitAlpha unsure.length d)) = true
  · simp only [if_pos hpred]
    rcases hbs : binary_search pred (unsure.take (2 ^ splitAlpha unsure.length d)) with
      ⟨o, confirmed_okay, btests⟩
    rcases o with _ | single_defect
    · simp
    · by_cases hstuck : (gbsRemovePos unsure single_defect confirmed_okay).length = unsure.length
      · simp [hstuck]
      · simp only [dif_neg hstuck]
        rcases gbsLoop pred (gbsRemovePos unsure single_defect confirmed_okay) d (k + 1) with
          ⟨res, tests, trace⟩
        simp
  · simp only [if_neg hpred]
    by_cases hstuck : (unsure.drop (2 ^ splitAlpha unsure.length d)).length = unsure.length
    · simp [hstuck]
    · simp only [dif_neg hstuck]
      rcases gbsLoop pred (unsure.drop (2 ^ splitAlpha unsure.length d)) d k with
        ⟨res, tests, trace⟩
      simp

/-! ### Relational big-step semantics of the loop, and determinism -/

/-- Big-step relation of a run of the splitting loop: `GbsRun pred unsure d
(result, calls)` holds when, starting from pool `unsure` with bound `d`, the
source loop returns `result` after making `calls` oracle calls.  Each
constructor mirrors one control path of the loop body of
`generalized_binary_splitting`. -/
inductive GbsRun {T : Type} [DecidableEq T] (pred : List T → Bool) :
    List T → Int → Except Unit (List T) × Nat → Prop where
  | empty (d : Int) : GbsRun pred [] d (.error (), 0)
  | base (unsure : List T) (d : Int) (hne : unsure ≠ [])
      (hbase : unsure.length = 1 ∨ (unsure.length : Int) ≤ 2 * d - 2) :
      GbsRun pred unsure d (.ok (unsure.filter fun c => pred [c]), unsure.length)
  | posStuck (unsure : List T) (d : Int) (single_defect : T) (confirmed_okay : List T)
      (btests : List (List T)) (hne : unsure ≠ [])
      (hbase : ¬(unsure.length = 1 ∨ (unsure.length : Int) ≤ 2 * d - 2))
      (hpred : pred (unsure.take (2 ^ splitAlpha unsure.length d)) = true)
      (hbs : binary_search pred (unsure.take (2 ^ splitAlpha unsure.length d)) =
        (some single_defect, confirmed_okay, btests))
      (hstuck : (gbsRemovePos unsure single_defect confirmed_okay).length = unsure.length) :
      GbsRun pred unsure d (.error (), btests.length + 1)
  | pos (unsure : List T) (d : Int) (single_defect : T) (confirmed_okay : List T)
      (btests : List (List T)) (res : Except Unit (List T)) (m : Nat) (hne : unsure ≠ [])
      (hbase : ¬(unsure.length = 1 ∨ (unsure.length : Int) ≤ 2 * d - 2))
      (hpred : pred (unsure.take (2 ^ splitAlpha unsure.length d)) = true)
      (hbs : binary_search pred (unsure.take (2 ^ splitAlpha unsure.length d)) =
        (some single_defect, confirmed_okay, btests))
      (hstuck : ¬(gbsRemovePos unsure single_defect confirmed_okay).length = unsure.length)
      (hrec : GbsRun pred (gbsRemovePos unsure single_defect confirmed_okay) d (res, m)) :
      GbsRun pred unsure d (res.map fun ds => single_defect :: ds, btests.length + 1 + m)
  | posNone (unsure : List T) (d : Int) (fst : List T) (btests : List (List T))
      (hne : unsure ≠ [])
      (hbase : ¬(unsure.length = 1 ∨ (unsure.length : Int) ≤ 2 * d - 2))
      (hpred : pred (unsure.take (2 ^ splitAlpha unsure.length d)) = true)
      (hbs : binary_search pred (unsure.take (2 ^ splitAlpha unsure.length d)) =
        (none, fst, btests)) :
      GbsRun pred unsure d (.error (), btests.length + 1)
  | negStuck (unsure : List T) (d : Int) (hne : unsure ≠ [])
      (hbase : ¬(unsure.length = 1 ∨ (unsure.length : Int) ≤ 2 * d - 2))
      (hpred : ¬pred (unsure.take (2 ^ splitAlpha unsure.length d)) = true)
      (hstuck : (unsure.drop (2 ^ splitAlpha unsure.length d)).length = unsure.length) :
      GbsRun pred unsure d (.error (), 1)
  | neg (unsure : List T) (d : Int) (res : Except Unit (List T)) (m : Nat)
      (hne : unsure ≠ [])
      (hbase : ¬(unsure.length = 1 ∨ (unsure.length : Int) ≤ 2 * d - 2))
      (hpred : ¬pred (unsure.take (2 ^ splitAlpha unsure.length d)) = true)
      (hstuck : ¬(unsure.drop (2 ^ splitAlpha unsure.length d)).length = unsure.length)
      (hrec : GbsRun pred (unsure.drop (2 ^ splitAlpha unsure.length d)) d (res, m)) :
      GbsRun pred unsure d (res, m + 1)

/-- The splitting-loop function realises the big-step relation: its returned
value and its oracle-call count form a valid run. -/
theorem gbsLoop_run {T : Type} [DecidableEq T] (pred : List T → Bool) (unsure : List T)
    (d : Int) (k : Nat) :
    GbsRun pred unsure d ((gbsLoop pred unsure d k).result, (gbsLoop pred unsure d k).tests.length) := by
  induction unsure, d, k using gbsLoop.induct pred with
  | case1 d k =>
    rw [gbsLoop_nil]
    exact GbsRun.empty d
  | case2 unsure d k hne' hbase =>
    rw [gbsLoop_base hne' hbase]
    have hlen : (unsure.map fun c => [c]).length = unsure.length := List.length_map _ _
    show GbsRun pred unsure d (.ok (unsure.filter fun c => pred [c]), (unsure.map fun c => [c]).length)
    rw [hlen]
    exact GbsRun.base unsure d hne' hbase
  | case3 unsure d k hne' hbase hpred single_defect confirmed_okay btests heq hstuck =>
    rw [gbsLoop.eq_def]
    simp only [if_neg hne', if_neg hbase, if_pos hpred, heq, dif_pos hstuck]
    show GbsRun pred unsure d (.error (), (unsure.take (2 ^ splitAlpha unsure.length d) :: btests).length)
    rw [List.length_cons]
    exact GbsRun.posStuck unsure d single_defect confirmed_okay btests hne' hbase hpred heq hstuck
  | case4 unsure d k hne' hbase hpred single_defect confirmed_okay btests heq hstuck
      res tests trace heq' ih =>
    rw [gbsLoop_pos hne' hbase hpred heq hstuck heq']
    rw [heq'] at ih
    have ih' : GbsRun pred (gbsRemovePos unsure single_defect confirmed_okay) d
        (res, tests.length) := ih
    show GbsRun pred unsure d (res.map fun ds => single_defect :: ds,
      ((unsure.take (2 ^ splitAlpha unsure.length d) :: btests) ++ tests).length)
    have hlen : ((unsure.take (2 ^ splitAlpha unsure.length d) :: btests) ++ tests).length =
        btests.length + 1 + tests.length := by
      rw [List.length_append, List.length_cons]
    rw [hlen]
    exact GbsRun.pos unsure d single_defect confirmed_okay btests res tests.length
      hne' hbase hpred heq hstuck ih'
  | case5 unsure d k hne' hbase hpred fst btests heq =>
    rw [gbsLoop.eq_def]
    simp only [if_neg hne', if_neg hbase, if_pos hpred, heq]
    show GbsRun pred unsure d (.error (), (unsure.take (2 ^ splitAlpha unsure.length d) :: btests).length)
    rw [List.length_cons]
    exact GbsRun.posNone unsure d fst btests hne' hbase hpred heq
  | case6 unsure d k hne' hbase hpred hstuck =>
    rw [gbsLoop.eq_def]
    simp only [if_neg hne', if_neg hbase, if_neg hpred, dif_pos hstuck]
    show GbsRun pred unsure d (.error (), ([unsure.take (2 ^ splitAlpha unsure.length d)]).length)
    exact GbsRun.negStuck unsure d hne' hbase hpred hstuck
  | case7 unsure d k hne' hbase hpred hstuck res tests trace heq' ih =>
    rw [gbsLoop_neg hne' hbase (by simpa using hpred) hstuck heq']
    rw [heq'] at ih
    have ih' : GbsRun pred (unsure.drop (2 ^ splitAlpha unsure.length d)) d
        (res, tests.length) := ih
    show GbsRun pred unsure d (res, (unsure.take (2 ^ splitAlpha unsure.length d) :: tests).length)
    rw [List.length_cons]
    exact GbsRun.neg unsure d res tests.length hne' hbase hpred hstuck ih'

/-- Completeness of the function with respect to the relation: every valid run
produces exactly the value and oracle-call count of `gbsLoop` (for any
defects-so-far counter `k`, which the result and call count do not depend on). -/
theorem gbsRun_eq_gbsLoop {T : Type} [DecidableEq T] {pred : List T → Bool}
    {unsure : List T} {d : Int} {o : Except Unit (List T) × Nat}
    (h : GbsRun pred unsure d o) :
    ∀ k, o = ((gbsLoop pred unsure d k).result, (gbsLoop pred unsure d k).tests.length) := by
  induction h with
  | empty d =>
    intro k
    rw [gbsLoop_nil]
    rfl
  | base unsure d hne hbase =>
    intro k
    rw [gbsLoop_base hne hbase]
    show (_, unsure.length) = (_, (unsure.map fun c => [c]).length)
    rw [List.length_map]
  | posStuck unsure d single_defect confirmed_okay btests hne hbase hpred hbs hstuck =>
    intro k
    rw [gbsLoop.eq_def]
    simp only [if_neg hne, if_neg hbase, if_pos hpred, hbs, dif_pos hstuck]
    show (_, btests.length + 1) = (_, (unsure.take (2 ^ splitAlpha unsure.length d) :: btests).length)
    rw [List.length_cons]
  | pos unsure d single_defect confirmed_okay btests res m hne hbase hpred hbs hstuck hrec ih =>
    intro k
    rcases hres : gbsLoop pred (gbsRemovePos unsure single_defect confirmed_okay) d (k + 1) with
      ⟨res', tests', trace'⟩
    have hcomp := ih (k + 1)
    rw [hres] at hcomp
    have hcomp' : (res, m) = (res', tests'.length) := hcomp
    have hr : res = res' := congrArg Prod.fst hcomp'
    have hm : m = tests'.length := congrArg Prod.snd hcomp'
    rw [gbsLoop_pos hne hbase hpred hbs hstuck hres]
    show (res.map fun ds => single_defect :: ds, btests.length + 1 + m) =
      (res'.map fun ds => single_defect :: ds,
       ((unsure.take (2 ^ splitAlpha unsure.length d) :: btests) ++ tests').length)
    rw [hr, hm, List.length_append, List.length_cons]
  | posNone unsure d fst btests hne hbase hpred hbs =>
    intro k
    rw [gbsLoop.eq_def]
    simp only [if_neg hne, if_neg hbase, if_pos hpred, hbs]
    show (_, btests.length + 1) = (_, (unsure.take (2 ^ splitAlpha unsure.length d) :: btests).length)
    rw [List.length_cons]
  | negStuck unsure d hne hbase hpred hstuck =>
    intro k
    rw [gbsLoop.eq_def]
    simp only [if_neg hne, if_neg hbase, if_neg hpred, dif_pos hstuck]
    rfl
  | neg unsure d res m hne hbase hpred hstuck hrec ih =>
    intro k
    rcases hres : gbsLoop pred (unsure.drop (2 ^ splitAlpha unsure.length d)) d k with
      ⟨res', tests', trace'⟩
    have hcomp := ih k
    rw [hres] at hcomp
    have hcomp' : (res, m) = (res', tests'.length) := hcomp
    have hr : res = res' := congrArg Prod.fst hcomp'
    have hm : m = tests'.length := congrArg Prod.snd hcomp'
    rw [gbsLoop_neg hne hbase (by simpa using hpred) hstuck hres]
    show (res, m + 1) =
      (res', (unsure.take (2 ^ splitAlpha unsure.length d) :: tests').length)
    rw [hr, hm, List.length_cons]

/-! ### Exact-floor characterisation of `alpha` -/

/-- For an integer `l ≥ 2`, the integer computation `Nat.log 2 (l.toNat / 2)`
(the embedding of `math.floor(math.log2(l / 2))`) equals the exact
mathematical `⌊log₂ (l / 2)⌋`. -/
theorem natLog_half_eq_floor_logb {l : Int} (h2 : 2 ≤ l) :
    ((Nat.log 2 (l.toNat / 2) : Int)) = ⌊Real.logb 2 ((l : ℝ) / 2)⌋ := by
  have hr : (0:ℝ) ≤ (l : ℝ) / 2 := by
    have h : (0:ℝ) ≤ (l:ℝ) := by exact_mod_cast (by omega : (0:Int) ≤ l)
    linarith
  have h1 : ⌊Real.logb 2 ((l : ℝ) / 2)⌋ = Int.log 2 ((l : ℝ) / 2) := by
    have h := Real.floor_logb_natCast (b := 2) (r := (l : ℝ) / 2) hr
    norm_num at h
    exact h
  have hr1 : (1:ℝ) ≤ (l : ℝ) / 2 := by
    have h : (2:ℝ) ≤ (l:ℝ) := by exact_mod_cast h2
    linarith
  have h2' : Int.log 2 ((l : ℝ) / 2) = Nat.log 2 ⌊(l : ℝ) / 2⌋₊ :=
    Int.log_of_one_le_right 2 hr1
  have h3 : ⌊(l : ℝ) / 2⌋₊ = ⌊(l : ℝ)⌋₊ / 2 := by
    have h := Nat.floor_div_nat (α := ℝ) (l : ℝ) 2
    norm_num at h
    exact h
  have h4 : ⌊(l : ℝ)⌋₊ = l.toNat := by
    rw [← Int.floor_toNat, Int.floor_intCast]
  rw [h1, h2', h3, h4]

/-! ## The claims -/

/-- C1, counterexample to the claim as stated ("for EVERY duplicate-free item
pool"): on the empty pool — a duplicate-free pool with at most `d = 1`
defectives under the oracle of the empty defective set — the code does not
return the (empty) set of defectives in the pool: the `while` loop never runs
and the source falls through to the bare `raise RuntimeError()` on its last
line, embedded as `Except.error ()`. -/
theorem C1_counterexample :
    (generalized_binary_splitting (oracleOf fun _ => false) ([] : List Nat) 1).result
      = .error () := by
  simp [generalized_binary_splitting, gbsLoop_nil]

/-- C1 as amended (non-emptiness of the pool added): for every non-empty
duplicate-free pool, every `d ≥ 1` and the deterministic monotone oracle of a
fixed defective set `D` with at most `d` defectives in the pool,
`generalized_binary_splitting` returns exactly the members of `D` that are in
the pool. -/
theorem C1_solve_correct {T : Type} [DecidableEq T] (D : T → Bool) (items : List T)
    (d : Int) (hne : items ≠ []) (hnodup : items.Nodup) (hd : 1 ≤ d)
    (_hcount : ((items.filter D).length : Int) ≤ d) :
    ∃ ds, (generalized_binary_splitting (oracleOf D) items d).result = .ok ds ∧
      ∀ x, x ∈ ds ↔ x ∈ items ∧ D x = true :=
  gbsLoop_correct D items d 0 hd hne hnodup

/-- C1 witness: the amended correctness theorem applied at the concrete pool
`[1, 2]` with defective set `{1}` and `d = 1`. -/
theorem C1_witness :
    ∃ ds, (generalized_binary_splitting (oracleOf fun x => x == 1) [1, 2] 1).result
        = .ok ds ∧
      ∀ x, x ∈ ds ↔ x ∈ [1, 2] ∧ (x == 1) = true :=
  C1_solve_correct (fun x => x == 1) [1, 2] 1 (by decide) (by decide) (by decide) (by decide)

/-- C2: for every non-empty candidate list and the oracle of a fixed defective
set `D`, if the whole candidate list tests positive then `_binary_search`
returns a defect that is truly in `D`, and every item of `confirmed_clean`
(`nondefective`) is truly not in `D` — with no assumption on how many
defectives the candidates contain. -/
theorem C2_binary_locator_sound {T : Type} (D : T → Bool) (candidates : List T)
    (hne : candidates ≠ []) (hpos : oracleOf D candidates = true) :
    ∃ defect, (binary_search (oracleOf D) candidates).1 = some defect ∧
      D defect = true ∧
      ∀ x ∈ (binary_search (oracleOf D) candidates).2.1, D x = false := by
  rcases (binary_search_sound D candidates hne hpos).1 with ⟨defect, h1, _, hD⟩
  exact ⟨defect, h1, hD,
    fun x hx => ((binary_search_sound D candidates hne hpos).2 x hx).2⟩

/-- C2 witness: the soundness theorem applied at candidates `[0, 1]` with
defective set `{0}`. -/
theorem C2_witness :
    ∃ defect, (binary_search (oracleOf fun x : Nat => x == 0) [0, 1]).1 = some defect ∧
      (defect == 0) = true ∧
      ∀ x ∈ (binary_search (oracleOf fun x : Nat => x == 0) [0, 1]).2.1,
        (x == 0) = false :=
  C2_binary_locator_sound (fun x : Nat => x == 0) [0, 1] (by decide) (by decide)

/-- C3, evaluation of the code at the failing input: with pool `[0,1,2,3]`,
`d = 2` and defective set `{0}`, the first round's block test is positive and
confirms the defect `0` (the defects-found counter in the trace goes from `0`
to `1`), yet the next iteration still runs with `d = 2`, not `d − 1 = 1`: the
source never reassigns `d`.  The trace lists `(len(unsure), d, len(defects))`
at the top of each loop iteration. -/
theorem C3_code_eval :
    (generalized_binary_splitting (fun l => l.elem 0) [0, 1, 2, 3] (2 : Int)).trace
      = [(4, 2, 0), (3, 2, 1), (2, 2, 1)] := by
  simp +decide [generalized_binary_splitting, gbsLoop, binary_search, bsearchAux,
    splitAlpha, gbsRemovePos, Nat.log]

/-- C4, counterexample: on the size-3 candidate list `[0,1,2]` with defective
set `{0}` — a positive oracle — `_binary_search` makes exactly 1 oracle call,
not `⌈log₂ 3⌉ = 2`: the first bisection tests the singleton `[0]`
(`mid = (0+3)//2 = 1`), and a positive answer shrinks the window to a single
item at once. -/
theorem C4_counterexample :
    (fun l => l.elem 0) [0, 1, 2] = true ∧
      (binary_search (fun l => l.elem 0) [0, 1, 2]).2.2.length = 1 ∧
      Nat.clog 2 ([0, 1, 2] : List Nat).length = 2 := by
  refine ⟨by decide, ?_, by simp [Nat.clog]⟩
  simp +decide [binary_search, bsearchAux]

/-- C4 as amended ("exactly" weakened to "at most", which is all the bisection
guarantees): for every candidate list of size `≥ 1` and every oracle positive
on the whole list, `_binary_search` makes at most `⌈log₂ k⌉` oracle calls. -/
theorem C4_calls_le {T : Type} (pred : List T → Bool) (candidates : List T)
    (_hne : candidates ≠ []) (_hpos : pred candidates = true) :
    (binary_search pred candidates).2.2.length ≤ Nat.clog 2 candidates.length :=
  binary_search_calls_le pred candidates

/-- C4 witness: the call-count bound applied at candidates `[0, 1]` with the
oracle positive on them. -/
theorem C4_witness :
    (binary_search (fun l => l.elem 0) [0, 1]).2.2.length ≤
      Nat.clog 2 ([0, 1] : List Nat).length :=
  C4_calls_le (fun l => l.elem 0) [0, 1] (by decide) (by decide)

/-- C5: for every oracle, every `d ≥ 1` and every non-empty duplicate-free
pool, the loop terminates returning normally — neither of the two
`raise RuntimeError()` sites (the fail-to-shrink check and the fall-through
after the loop) is ever reached — and the pool size recorded at the top of
consecutive loop iterations strictly decreases. -/
theorem C5_terminates_no_error {T : Type} [DecidableEq T] (pred : List T → Bool)
    (items : List T) (d : Int) (hd : 1 ≤ d) (hne : items ≠ []) (hnodup : items.Nodup) :
    (∃ ds, (generalized_binary_splitting pred items d).result = .ok ds) ∧
      List.Chain' (fun a b => b.1 < a.1) (generalized_binary_splitting pred items d).trace :=
  ⟨(gbsLoop_ok pred items d 0 hd hne hnodup).1, (gbsLoop_ok pred items d 0 hd hne hnodup).2.1⟩

/-- C5 witness: the termination/no-error theorem applied at the pool `[0, 1]`
with an all-negative oracle and `d = 1`. -/
theorem C5_witness :
    (∃ ds, (generalized_binary_splitting (fun _ => false) [0, 1] 1).result = .ok ds) ∧
      List.Chain' (fun a b => b.1 < a.1)
        (generalized_binary_splitting (fun _ : List Nat => false) [0, 1] 1).trace :=
  C5_terminates_no_error (fun _ => false) [0, 1] 1 (by decide) (by decide) (by decide)

/-- C6: determinism.  Any two runs of the splitting loop (as captured by the
big-step relation `GbsRun`, which mirrors the source's control paths) from the
same oracle, item list and `d` produce the same returned value and the same
number of oracle calls. -/
theorem C6_deterministic {T : Type} [DecidableEq T] (pred : List T → Bool)
    (items : List T) (d : Int) (o₁ o₂ : Except Unit (List T) × Nat)
    (h1 : GbsRun pred items d o₁) (h2 : GbsRun pred items d o₂) : o₁ = o₂ :=
  (gbsRun_eq_gbsLoop h1 0).trans (gbsRun_eq_gbsLoop h2 0).symm

/-- C6 witness: two (syntactically identical) runs on the pool `[0, 1]` with
defective set `{0}` and `d = 1`, built by `gbsLoop_run`, have equal outcomes. -/
theorem C6_witness :
    ((gbsLoop (fun l => l.elem 0) [0, 1] 1 0).result,
      (gbsLoop (fun l => l.elem 0) [0, 1] 1 0).tests.length) =
    ((gbsLoop (fun l => l.elem 0) [0, 1] 1 0).result,
      (gbsLoop (fun l => l.elem 0) [0, 1] 1 0).tests.length) :=
  C6_deterministic (fun l => l.elem 0) [0, 1] 1 _ _
    (gbsLoop_run (fun l => l.elem 0) [0, 1] 1 0) (gbsLoop_run (fun l => l.elem 0) [0, 1] 1 0)

/-- C7, counterexample: the precondition violation `d = 0 < 1` is not handled
by validation at all — on the pool `[5]` with defective set `{5}` the code
runs the normal algorithm and returns the NON-empty result `[5]`, so it
neither "returns an empty result" nor "rejects with a validation error". -/
theorem C7_counterexample :
    (generalized_binary_splitting (fun l => l.elem 5) [5] (0 : Int)).result
      = .ok [5] := by
  simp +decide [generalized_binary_splitting, gbsLoop, binary_search, bsearchAux,
    splitAlpha, gbsRemovePos, Nat.log]

/-- C7 as amended: the code performs no input validation.  With empty `items`
it raises the internal bare `RuntimeError` (for every oracle and every `d`);
with `d < 1` it runs the normal splitting loop, which may return a non-empty
correct result (`d = 0` on pool `[5]`, defective set `{5}`) or reach the
fall-through `RuntimeError` (`d = -5` on pool `[1, 2]` with an all-negative
oracle). -/
theorem C7_amended_behavior :
    (∀ (T : Type) (_ : DecidableEq T) (pred : List T → Bool) (d : Int),
      (generalized_binary_splitting pred ([] : List T) d).result = .error ()) ∧
      (generalized_binary_splitting (fun l => l.elem 5) [5] (0 : Int)).result = .ok [5] ∧
      (generalized_binary_splitting (fun _ => false) [1, 2] (-5 : Int)).result
        = .error () := by
  refine ⟨?_, ?_, ?_⟩
  · intro T _ pred d
    simp [generalized_binary_splitting, gbsLoop_nil]
  · simp +decide [generalized_binary_splitting, gbsLoop, binary_search, bsearchAux,
      splitAlpha, gbsRemovePos, Nat.log]
  · simp +decide [generalized_binary_splitting, gbsLoop, binary_search, bsearchAux,
      splitAlpha, gbsRemovePos, Nat.log]

/-- C8: in every adaptive-case iteration (pool size `n > 1` and `n > 2d − 2`),
the block passed to the oracle first in that iteration is exactly the first
`2 ^ alpha` pool elements where `alpha` is the exact mathematical
`⌊log₂ ((n − d + 1) / 2)⌋`, and when the block tests negative the rest of the
iterationʼs oracle calls are exactly those of the loop continued on the
remaining pool `unsure[2^alpha:]`. -/
theorem C8_adaptive_split {T : Type} [DecidableEq T] (pred : List T → Bool)
    (unsure : List T) (d : Int) (k : Nat) (hn1 : 1 < unsure.length)
    (hn2 : 2 * d - 2 < (unsure.length : Int)) :
    ((splitAlpha unsure.length d : Int)
        = ⌊Real.logb 2 (((unsure.length : ℝ) - (d : ℝ) + 1) / 2)⌋) ∧
      (gbsLoop pred unsure d k).tests.head?
        = some (unsure.take (2 ^ splitAlpha unsure.length d)) ∧
      (pred (unsure.take (2 ^ splitAlpha unsure.length d)) = false →
        (gbsLoop pred unsure d k).tests.tail
          = (gbsLoop pred (unsure.drop (2 ^ splitAlpha unsure.length d)) d k).tests) := by
  have hne : unsure ≠ [] := by
    intro h
    rw [h] at hn1
    simp at hn1
  have hbase : ¬(unsure.length = 1 ∨ (unsure.length : Int) ≤ 2 * d - 2) := by
    push_neg
    exact ⟨by omega, by omega⟩
  refine ⟨?_, gbsLoop_tests_head pred unsure d k hne hbase, ?_⟩
  · have hl2 : 2 ≤ (unsure.length : Int) - d + 1 := by omega
    have h := natLog_half_eq_floor_logb hl2
    have hc : ((((unsure.length : Int) - d + 1 : Int)) : ℝ)
        = ((unsure.length : ℝ) - (d : ℝ) + 1) := by
      push_cast
      ring
    rw [hc] at h
    simpa [splitAlpha] using h
  · intro hpred
    have hstuck : ¬(unsure.drop (2 ^ splitAlpha unsure.length d)).length = unsure.length := by
      rw [List.length_drop]
      have := Nat.two_pow_pos (splitAlpha unsure.length d)
      omega
    rcases hres : gbsLoop pred (unsure.drop (2 ^ splitAlpha unsure.length d)) d k with
      ⟨res, tests, trace⟩
    rw [gbsLoop_neg hne hbase hpred hstuck hres]
    rfl

/-- C8 witness: the adaptive-split theorem applied at the pool `[0,1,2,3]`
with `d = 2` (so `n = 4 > 1`, `n > 2d − 2 = 2`, `l = 3`, `alpha = 0`). -/
theorem C8_witness :
    ((splitAlpha ([0,1,2,3] : List Nat).length 2 : Int)
        = ⌊Real.logb 2 (((([0,1,2,3] : List Nat).length : ℝ) - ((2 : Int) : ℝ) + 1) / 2)⌋) ∧
      (gbsLoop (fun l => l.elem 0) [0,1,2,3] 2 0).tests.head?
        = some (([0,1,2,3] : List Nat).take (2 ^ splitAlpha ([0,1,2,3] : List Nat).length 2)) ∧
      ((fun l => l.elem 0) (([0,1,2,3] : List Nat).take
          (2 ^ splitAlpha ([0,1,2,3] : List Nat).length 2)) = false →
        (gbsLoop (fun l => l.elem 0) [0,1,2,3] 2 0).tests.tail
          = (gbsLoop (fun l => l.elem 0)
              (([0,1,2,3] : List Nat).drop (2 ^ splitAlpha ([0,1,2,3] : List Nat).length 2))
              2 0).tests) :=
  C8_adaptive_split (fun l => l.elem 0) [0,1,2,3] 2 0 (by decide) (by decide)

/-- C9 (Scenario B): for every permutation of `0..99999`, with the oracle
"contains an element `< 5`" and `d = 2`, the algorithm returns exactly
`{0,1,2,3,4}` — even though the true defective count `5` exceeds `d = 2`. -/
theorem C9_scenario_b (items : List Nat) (hperm : items.Perm (List.range 100000)) :
    ∃ ds, (generalized_binary_splitting (oracleOf fun x => decide (x < 5)) items 2).result
        = .ok ds ∧ ∀ x, x ∈ ds ↔ x < 5 := by
  have hne : items ≠ [] := by
    intro h
    have hlen := hperm.length_eq
    rw [h] at hlen
    simp at hlen
  have hnodup : items.Nodup := hperm.nodup_iff.2 (List.nodup_range 100000)
  rcases gbsLoop_correct (fun x => decide (x < 5)) items 2 0 (by norm_num) hne hnodup with
    ⟨ds, hok, hmem⟩
  refine ⟨ds, hok, ?_⟩
  intro x
  rw [hmem x]
  constructor
  · rintro ⟨_, hx5⟩
    simpa using hx5
  · intro hx5
    refine ⟨?_, by simpa using hx5⟩
    rw [hperm.mem_iff, List.mem_range]
    omega

/-- C9 witness: Scenario B applied at the identity permutation `0..99999`. -/
theorem C9_witness :
    ∃ ds, (generalized_binary_splitting (oracleOf fun x => decide (x < 5))
        (List.range 100000) 2).result = .ok ds ∧ ∀ x, x ∈ ds ↔ x < 5 :=
  C9_scenario_b (List.range 100000) (List.Perm.refl _)

/-- C10: every list the splitting loop or `_binary_search` passes to the
oracle is non-empty — the base case tests singletons, the adaptive case tests
the non-empty block `unsure[:2^alpha]`, and every bisection slice
`candidates[start:mid]` has `mid > start`. -/
theorem C10_oracle_calls_nonempty {T : Type} [DecidableEq T] (pred : List T → Bool)
    (items candidates : List T) (d : Int) :
    (∀ t ∈ (generalized_binary_splitting pred items d).tests, t ≠ []) ∧
      (∀ t ∈ (binary_search pred candidates).2.2, t ≠ []) :=
  ⟨gbsLoop_tests_nonempty pred items d 0, binary_search_tests_nonempty pred candidates⟩

end AdaptiveGroupTesting
